import Mathlib

/-!
Verification of the configuration-expansion and label-sanitization core of
`caliban/util.py`.

Python strings are modelled as lists of characters (`Str`), Python dicts as
association lists built exclusively through `listUpdate` (assignment
`d[k] = v`: update the first entry holding `k` in place, otherwise append at
the end, exactly the insertion-order behaviour of a Python dict), and Python
sets as duplicate-free lists built through `setAdd`.  Fallible code (the
`k, v` tuple-unpacking in `script_args_to_labels`, which raises `ValueError`
on a window that does not hold exactly two tokens) is modelled with `Option`:
`none` marks the raised exception.
-/

abbrev Str := List Char

abbrev Dict := List (Str × Str)

/-- First-match association-list lookup: `d[k]` / `k in d` probing. -/
def lookup {K V : Type} [DecidableEq K] : List (K × V) → K → Option V
  | [], _ => none
  | p :: ps, k => if p.1 = k then some p.2 else lookup ps k

/-- Python dict assignment `d[k] = v`: overwrite the entry for `k` in place,
otherwise append the new pair at the end. -/
def listUpdate {K V : Type} [DecidableEq K] : List (K × V) → K → V → List (K × V)
  | [], k, v => [(k, v)]
  | p :: ps, k, v => if p.1 = k then (p.1, v) :: ps else p :: listUpdate ps k v

/-- Python `s.add(x)` on a set modelled as a duplicate-free list. -/
def setAdd {α : Type} [DecidableEq α] (s : List α) (x : α) : List α :=
  if x ∈ s then s else s ++ [x]

/-- A value of a configuration dict: either a bare (non-list) scalar or a
list, mirroring the `isinstance(v, list)` test in `dict_product`. -/
inductive PVal (α : Type) where
  | scalar : α → PVal α
  | list : List α → PVal α

/-- `wrap_v` in `dict_product`: a non-list value becomes a singleton list. -/
def wrap_v {α : Type} : PVal α → List α
  | .scalar a => [a]
  | .list xs => xs

/-- `itertools.product` over a list of lists (rightmost factor varies
fastest). -/
def listProduct {α : Type} : List (List α) → List (List α)
  | [] => [[]]
  | xs :: rest => xs.flatMap fun x => (listProduct rest).map fun t => x :: t

/-- `dict_product`: wrap every value, take the cartesian product of the value
lists in key order, and reassemble each combination against the keys
(`dict(zip(ks, x))`). -/
def dict_product {K α : Type} (m : List (K × PVal α)) : List (List (K × α)) :=
  (listProduct (m.map fun p => wrap_v p.2)).map fun combo => (m.map Prod.fst).zip combo

/-- `ret.setdefault(k2, {})[k] = v` — the inner step of `flipm`. -/
def flipInsert {K V : Type} [DecidableEq K] :
    List (K × List (K × V)) → K → K → V → List (K × List (K × V))
  | [], k2, k, v => [(k2, [(k, v)])]
  | p :: ps, k2, k, v =>
    if p.1 = k2 then (p.1, listUpdate p.2 k v) :: ps else p :: flipInsert ps k2 k v

/-- `flipm`: for every `k, k2, v` in the two-level table set
`ret[k2][k] = v`. -/
def flipm {K V : Type} [DecidableEq K] (table : List (K × List (K × V))) :
    List (K × List (K × V)) :=
  table.foldl (fun ret km => km.2.foldl (fun r p => flipInsert r p.1 km.1 p.2) ret) []

/-- `ret.setdefault(v, set()).add(k)` — the inner step of `invertm`. -/
def invInsert {K V : Type} [DecidableEq K] [DecidableEq V] :
    List (V × List K) → V → K → List (V × List K)
  | [], v, k => [(v, [k])]
  | p :: ps, v, k => if p.1 = v then (p.1, setAdd p.2 k) :: ps else p :: invInsert ps v k

/-- `invertm`: for every key `k` and every `v` in its iterable, add `k` to
`ret[v]`. -/
def invertm {K V : Type} [DecidableEq K] [DecidableEq V]
    (table : List (K × List V)) : List (V × List K) :=
  table.foldl (fun ret kvs => kvs.2.foldl (fun r v => invInsert r v kvs.1) ret) []

/-- `acc = innerm.setdefault(b, set()); acc.add(x)` — inner step of
`insert3`. -/
def innerAdd {K V : Type} [DecidableEq K] [DecidableEq V] :
    List (K × List V) → K → V → List (K × List V)
  | [], b, x => [(b, [x])]
  | p :: ps, b, x => if p.1 = b then (p.1, setAdd p.2 x) :: ps else p :: innerAdd ps b x

/-- `ret.setdefault(a, {}).setdefault(b, set()).add(x)` — the write performed
by `reorderm` for one `(k, k2, v)` triple. -/
def insert3 {K V : Type} [DecidableEq K] [DecidableEq V] :
    List (K × List (K × List V)) → K → K → V → List (K × List (K × List V))
  | [], a, b, x => [(a, [(b, [x])])]
  | p :: ps, a, b, x =>
    if p.1 = a then (p.1, innerAdd p.2 b x) :: ps else p :: insert3 ps a b x

/-- `fields = [k, k2, v]; fields[i]` for `i < 3`. -/
def sel3 {α : Type} (tr : α × α × α) (i : Fin 3) : α :=
  if i = 0 then tr.1 else if i = 1 then tr.2.1 else tr.2.2

/-- `reorderm`: regroup every `(k, k2, v)` triple of a three-level table along
the axes selected by `order`. -/
def reorderm {α : Type} [DecidableEq α] (table : List (α × List (α × List α)))
    (order : Fin 3 × Fin 3 × Fin 3) : List (α × List (α × List α)) :=
  table.foldl
    (fun ret km =>
      km.2.foldl
        (fun r2 kv =>
          kv.2.foldl
            (fun r3 v =>
              insert3 r3 (sel3 (km.1, kv.1, v) order.1) (sel3 (km.1, kv.1, v) order.2.1)
                (sel3 (km.1, kv.1, v) order.2.2))
            r2)
        ret) []

/-- `_is_key`: non-null, non-empty, and starting with `-`. -/
def _is_key : Option Str → Bool
  | none => false
  | some [] => false
  | some (c :: _) => c = '-'

/-- `_truncate`: `s if len(s) <= max_length else s[0:max_length]`. -/
def _truncate (s : Str) (max_length : Nat) : Str :=
  if s.length ≤ max_length then s else s.take max_length

/-- The character class `[a-z0-9_-]` of the sanitizing regex. -/
def labelChar (c : Char) : Bool :=
  ('a' ≤ c && c ≤ 'z') || ('0' ≤ c && c ≤ '9') || c = '_' || c = '-'

/-- Python `s.lstrip("-")`: drop every leading `-`. -/
def stripDashes : Str → Str
  | [] => []
  | c :: cs => if c = '-' then stripDashes cs else c :: cs

/-- `_clean_label`: strip leading dashes, lowercase, delete characters outside
`[a-z0-9_-]`, prepend `k` for keys whose cleaned form starts with a
non-letter, truncate to 63. -/
def _clean_label (s : Option Str) (is_key : Bool) : Str :=
  match s with
  | none => []
  | some s =>
    let cleaned := ((stripDashes s).map Char.toLower).filter labelChar
    let cleaned2 :=
      if is_key && !cleaned.isEmpty && !(cleaned.headD ' ').isAlpha then 'k' :: cleaned
      else cleaned
    _truncate cleaned2 63

/-- `key_label`. -/
def key_label (k : Option Str) : Str := _clean_label k true

/-- `value_label`. -/
def value_label (v : Option Str) : Str := _clean_label v false

/-- `partition`: overlapping windows `seq[i:i+n]` for
`i in range(0, max(1, len(seq) - n + 1))`. -/
def partition (seq : List Str) (n : Nat) : List (List Str) :=
  (List.range (max 1 (seq.length - n + 1))).map fun i => (seq.drop i).take n

/-- The closure `process_pair` of `script_args_to_labels`, acting on the
accumulated dict. -/
def process_pair (ret : Dict) (k v : Option Str) : Dict :=
  if _is_key k then
    let clean_k := key_label k
    if clean_k ≠ [] then listUpdate ret clean_k (if _is_key v then [] else value_label v)
    else ret
  else ret

/-- The `for k, v in partition(script_args, 2)` tuple-unpacking: a window that
does not hold exactly two tokens raises `ValueError`, modelled as `none`. -/
def unpackPairs : List (List Str) → Option (List (Str × Str))
  | [] => some []
  | [k, v] :: ws => (unpackPairs ws).map fun ps => (k, v) :: ps
  | _ :: _ => none

/-- `script_args_to_labels`: scan overlapping windows of width 2, then
re-examine the last token as a potential trailing boolean flag when the
sequence has more than one token.  `none` models a raised `ValueError`. -/
def script_args_to_labels (script_args : Option (List Str)) : Option Dict :=
  match script_args with
  | none => some []
  | some args =>
    if args.length = 0 then some []
    else
      match unpackPairs (partition args 2) with
      | none => none
      | some pairs =>
        let ret := pairs.foldl (fun r kv => process_pair r (some kv.1) (some kv.2)) []
        if 1 < args.length then some (process_pair ret args.getLast? none)
        else some ret

/-- `sanitize_labels`: the dict comprehension
`{key_label(k): value_label(v) for (k, v) in pairs if key_label(k)}`. -/
def sanitize_labels (pairs : List (Str × Str)) : Dict :=
  pairs.foldl
    (fun d p =>
      if key_label (some p.1) ≠ [] then
        listUpdate d (key_label (some p.1)) (value_label (some p.2))
      else d)
    []


/-! ### Shared helper lemmas -/

/-- Every window produced by `partition _ 2` on a sequence of length at least
two holds exactly two tokens. -/
theorem partition_two_window_length (args : List Str) (h : 2 ≤ args.length) :
    ∀ w ∈ partition args 2, w.length = 2 := by
  intro w hw
  simp only [partition, List.mem_map, List.mem_range] at hw
  obtain ⟨i, hi, rfl⟩ := hw
  have hmax : max 1 (args.length - 2 + 1) = args.length - 1 := by omega
  rw [hmax] at hi
  simp only [List.length_take, List.length_drop]
  omega

/-- Tuple unpacking succeeds on a window list whose members all have exactly
two tokens. -/
theorem unpackPairs_isSome :
    ∀ ws : List (List Str), (∀ w ∈ ws, w.length = 2) → ∃ ps, unpackPairs ws = some ps := by
  intro ws
  induction ws with
  | nil => exact fun _ => ⟨[], rfl⟩
  | cons w ws ih =>
    intro h
    obtain ⟨a, b, rfl⟩ := List.length_eq_two.mp (h w (by simp))
    obtain ⟨ps, hps⟩ := ih fun w hw => h w (by simp [hw])
    exact ⟨(a, b) :: ps, by simp [unpackPairs, hps]⟩

/-! ### C1 -/

/-- C1 (amended): `script_args_to_labels` returns the empty mapping on `None`
and on an empty token sequence, but a sequence of exactly one token makes the
width-2 window unpacking raise `ValueError` (modelled as `none`) — the
trailing-flag step requires length strictly greater than one and is never
reached; on every sequence of length at least two the function is total. -/
theorem c1_scriptArgs_totality (args : List Str) :
    script_args_to_labels none = some [] ∧
    (args.length = 0 → script_args_to_labels (some args) = some []) ∧
    (args.length = 1 → script_args_to_labels (some args) = none) ∧
    (2 ≤ args.length → ∃ d, script_args_to_labels (some args) = some d) := by
  refine ⟨rfl, ?_, ?_, ?_⟩
  · intro h
    rw [List.length_eq_zero.mp h]
    rfl
  · intro h
    obtain ⟨a, rfl⟩ := List.length_eq_one.mp h
    rfl
  · intro h
    obtain ⟨ps, hps⟩ := unpackPairs_isSome _ (partition_two_window_length args h)
    simp only [script_args_to_labels]
    rw [if_neg (by omega), hps]
    dsimp only
    split
    · exact ⟨_, rfl⟩
    · exact ⟨_, rfl⟩

/-- C1 counterexample: `["--foo"]` is a one-token sequence whose single token
is a valid flag token, yet `script_args_to_labels` raises (result `none`)
instead of returning any mapping: the trailing-flag step is not applied. -/
theorem c1_counterexample :
    _is_key (some "--foo".toList) = true ∧
    script_args_to_labels (some ["--foo".toList]) = none :=
  ⟨rfl, rfl⟩

/-- Witness for C1: the amended theorem applied at the one-token input
`["a"]`. -/
theorem c1_witness : script_args_to_labels (some ["a".toList]) = none :=
  (c1_scriptArgs_totality ["a".toList]).2.2.1 rfl

/-! ### C3 -/

/-- C3: `script_args_to_labels ["--foo", "bar", "--flag"]` yields exactly
`{"foo": "bar", "flag": ""}`, recovering the trailing standalone flag, and the
empty sequence yields the empty mapping. -/
theorem c3_concrete_examples :
    script_args_to_labels (some ["--foo".toList, "bar".toList, "--flag".toList]) =
      some [("foo".toList, "bar".toList), ("flag".toList, [])] ∧
    script_args_to_labels (some ([] : List Str)) = some [] :=
  ⟨rfl, rfl⟩

/-! ### C2 -/

/-- C2 (amended): for a window `(k, v)` whose first token is classified as a
key with non-empty sanitized form, the recorded value is the sanitized value
`value_label v` — not `v` unchanged — and the empty string when `v` itself
looks like a flag. -/
theorem c2_amended_sanitized_value (k v : Str) (hk : _is_key (some k) = true)
    (hkk : key_label (some k) ≠ []) :
    (∀ ret : Dict, process_pair ret (some k) (some v) =
        listUpdate ret (key_label (some k))
          (if _is_key (some v) then [] else value_label (some v))) ∧
    (_is_key (some v) = false →
      script_args_to_labels (some [k, v]) =
        some [(key_label (some k), value_label (some v))]) := by
  constructor
  · intro ret
    simp [process_pair, hk, hkk]
  · intro hv
    have hpart : unpackPairs (partition [k, v] 2) = some [(k, v)] := rfl
    simp only [script_args_to_labels, List.length_cons, List.length_nil, hpart]
    norm_num
    simp [process_pair, hk, hkk, hv, listUpdate]

/-- C2 counterexample: with raw value `"BAR"` the recorded value is the
sanitized `"bar"`, which differs from `"BAR"` — the value is not stored
as-is. -/
theorem c2_counterexample :
    script_args_to_labels (some ["--foo".toList, "BAR".toList]) =
      some [("foo".toList, "bar".toList)] ∧
    "bar".toList ≠ "BAR".toList :=
  ⟨rfl, by decide⟩

/-- Witness for C2: the amended theorem applied at the window
`("--foo", "bar")`. -/
theorem c2_witness :
    script_args_to_labels (some ["--foo".toList, "bar".toList]) =
      some [("foo".toList, "bar".toList)] :=
  (c2_amended_sanitized_value "--foo".toList "bar".toList rfl (by decide)).2 rfl

/-! ### Sanitizer helper lemmas -/

/-- `lstrip("-")` agrees with `dropWhile`. -/
theorem stripDashes_eq_dropWhile :
    ∀ s : Str, stripDashes s = s.dropWhile fun c => decide (c = '-') := by
  intro s
  induction s with
  | nil => rfl
  | cons c cs ih =>
    by_cases h : c = '-' <;> simp [stripDashes, List.dropWhile_cons, h, ih]

/-- `_truncate` is `take`. -/
theorem _truncate_eq_take (s : Str) (n : Nat) : _truncate s n = s.take n := by
  unfold _truncate
  split
  · exact (List.take_of_length_le (by assumption)).symm
  · rfl

/-- Truncation never exceeds the requested length. -/
theorem _truncate_length_le (s : Str) (n : Nat) : (_truncate s n).length ≤ n := by
  unfold _truncate
  split
  · assumption
  · rw [List.length_take]
    exact Nat.min_le_left _ _

/-- Truncation only keeps characters of the input. -/
theorem mem_of_mem_truncate {c : Char} {s : Str} {n : Nat} (h : c ∈ _truncate s n) :
    c ∈ s := by
  unfold _truncate at h
  split at h
  · exact h
  · exact List.mem_of_mem_take h

/-- Truncating to 63 keeps the first character. -/
theorem truncate63_headD (s : Str) (d : Char) : (_truncate s 63).headD d = s.headD d := by
  unfold _truncate
  split
  · rfl
  · cases s <;> rfl

/-- Truncating to 63 is empty exactly on the empty string. -/
theorem truncate63_eq_nil (s : Str) : _truncate s 63 = [] ↔ s = [] := by
  unfold _truncate
  split
  · exact Iff.rfl
  · constructor
    · intro h
      exfalso
      have hlen := congrArg List.length h
      rw [List.length_take] at hlen
      simp only [List.length_nil] at hlen
      rcases Nat.min_eq_zero_iff.mp hlen with h' | h' <;> omega
    · intro h
      rw [h]
      rfl

/-! ### C4 -/

/-- The sanitize pipeline exactly as the specification words it: empty for
null input, strip leading dashes, lowercase, delete characters outside
`[a-z0-9_-]`, prepend `k` for keys whose non-empty cleaned form starts with a
non-letter, truncate to at most 63 characters keeping the prefix. -/
def sanitizeSpec (s : Option Str) (is_key : Bool) : Str :=
  match s with
  | none => []
  | some s =>
    let r := ((s.dropWhile fun c => decide (c = '-')).map Char.toLower).filter labelChar
    let r2 := if is_key && !r.isEmpty && !(r.headD ' ').isAlpha then 'k' :: r else r
    r2.take 63

/-- C4: `_clean_label` computes exactly the pipeline the specification
describes; the worked examples hold; the value path never prepends the `k`
prefix; cleaned strings longer than 63 characters are truncated to exactly
63. -/
theorem c4_clean_label_pipeline :
    (∀ (s : Option Str) (b : Bool), _clean_label s b = sanitizeSpec s b) ∧
    _clean_label (some "--My.Key!!".toList) true = "mykey".toList ∧
    _clean_label (some "123abc".toList) true = "k123abc".toList ∧
    (∀ s : Str, _clean_label (some s) false =
      _truncate (((stripDashes s).map Char.toLower).filter labelChar) 63) ∧
    (∀ (s : Str) (b : Bool),
      63 < (((stripDashes s).map Char.toLower).filter labelChar).length →
      (_clean_label (some s) b).length = 63) := by
  refine ⟨?_, rfl, rfl, ?_, ?_⟩
  · intro s b
    cases s with
    | none => rfl
    | some s =>
      simp only [_clean_label, sanitizeSpec, stripDashes_eq_dropWhile, _truncate_eq_take]
  · intro s
    rfl
  · intro s b h
    simp only [_clean_label, _truncate_eq_take]
    rw [List.length_take]
    split
    · simp only [List.length_cons]
      omega
    · omega

/-- Witness for C4: a cleaned string of 70 `a` characters is longer than 63
and its label is cut to exactly 63 characters. -/
theorem c4_witness :
    (_clean_label
        (some "aaaaaaaaaaaaaaaaaaaaaaaaaaaaaaaaaaaaaaaaaaaaaaaaaaaaaaaaaaaaaaaaaaaaaa".toList)
        true).length = 63 :=
  c4_clean_label_pipeline.2.2.2.2
    "aaaaaaaaaaaaaaaaaaaaaaaaaaaaaaaaaaaaaaaaaaaaaaaaaaaaaaaaaaaaaaaaaaaaaa".toList true
    (by decide)

/-! ### Label invariant helper lemmas -/

/-- Every character of a cleaned label lies in `[a-z0-9_-]`. -/
theorem clean_label_chars (s : Option Str) (b : Bool) :
    ∀ c ∈ _clean_label s b, labelChar c = true := by
  cases s with
  | none =>
    intro c hc
    simp [_clean_label] at hc
  | some s =>
    intro c hc
    simp only [_clean_label] at hc
    have hc2 := mem_of_mem_truncate hc
    split at hc2
    · rcases List.mem_cons.mp hc2 with rfl | hmem
      · rfl
      · exact List.of_mem_filter hmem
    · exact List.of_mem_filter hc2

/-- A cleaned label holds at most 63 characters. -/
theorem clean_label_length_le (s : Option Str) (b : Bool) :
    (_clean_label s b).length ≤ 63 := by
  cases s with
  | none => simp [_clean_label]
  | some s => exact _truncate_length_le _ _

/-- A non-empty sanitized key starts with a letter. -/
theorem key_label_head_alpha (s : Option Str) (h : key_label s ≠ []) :
    ((key_label s).headD ' ').isAlpha = true := by
  cases s with
  | none => exact absurd rfl h
  | some s =>
    simp only [key_label, _clean_label] at h ⊢
    rw [truncate63_headD]
    by_cases he : (((stripDashes s).map Char.toLower).filter labelChar).isEmpty = true
    · rw [List.isEmpty_iff] at he
      rw [he] at h
      simp [_truncate] at h
    · by_cases ha :
          ((((stripDashes s).map Char.toLower).filter labelChar).headD ' ').isAlpha = true
      · simp only [Bool.not_eq_true] at he ha
        simp only [he, ha, Bool.not_false, Bool.not_true, Bool.true_and, Bool.and_false,
          if_false]
        exact ha
      · simp only [Bool.not_eq_true] at he ha
        simp only [he, ha, Bool.not_false, Bool.true_and, Bool.and_true, if_true,
          List.headD_cons]
        rfl

/-- The label-key invariant of the spec: non-empty, at most 63 characters over
`[a-z0-9_-]`, first character a letter. -/
def validKey (k : Str) : Prop :=
  k ≠ [] ∧ k.length ≤ 63 ∧ (∀ c ∈ k, labelChar c = true) ∧ (k.headD ' ').isAlpha = true

/-- The label-value invariant of the spec: at most 63 characters over
`[a-z0-9_-]`, possibly empty. -/
def validValue (v : Str) : Prop :=
  v.length ≤ 63 ∧ ∀ c ∈ v, labelChar c = true

/-- A non-empty sanitized key satisfies the key invariant. -/
theorem key_label_validKey (s : Option Str) (h : key_label s ≠ []) :
    validKey (key_label s) :=
  ⟨h, clean_label_length_le s true, clean_label_chars s true, key_label_head_alpha s h⟩

/-- Every sanitized value satisfies the value invariant. -/
theorem value_label_validValue (s : Option Str) : validValue (value_label s) :=
  ⟨clean_label_length_le s false, clean_label_chars s false⟩

/-- The empty value satisfies the value invariant. -/
theorem nil_validValue : validValue ([] : Str) := by
  constructor
  · simp
  · intro c hc
    simp at hc

/-- Dict assignment preserves a per-entry predicate when the new pair also
satisfies it. -/
theorem listUpdate_pred {K V : Type} [DecidableEq K] (P : K × V → Prop)
    (d : List (K × V)) (k : K) (v : V) (hd : ∀ p ∈ d, P p) (hkv : P (k, v)) :
    ∀ p ∈ listUpdate d k v, P p := by
  induction d with
  | nil =>
    intro p hp
    rw [List.mem_singleton.mp hp]
    exact hkv
  | cons q d ih =>
    simp only [listUpdate]
    split
    · next hq =>
      intro p hp
      rcases List.mem_cons.mp hp with rfl | hmem
      · rw [hq]
        exact hkv
      · exact hd p (List.mem_cons_of_mem _ hmem)
    · intro p hp
      rcases List.mem_cons.mp hp with rfl | hmem
      · exact hd p (List.mem_cons_self _ _)
      · exact ih (fun r hr => hd r (List.mem_cons_of_mem _ hr)) p hmem

/-- Folding a step that preserves an invariant preserves the invariant. -/
theorem foldl_preserve {α β : Type} (P : α → Prop) (f : α → β → α)
    (hf : ∀ a b, P a → P (f a b)) : ∀ (l : List β) (a : α), P a → P (l.foldl f a) := by
  intro l
  induction l with
  | nil => exact fun _ h => h
  | cons x xs ih => exact fun a h => ih (f a x) (hf a x h)

/-- Every entry of a dict is key/value valid after `process_pair`. -/
theorem process_pair_valid (ret : Dict) (k v : Option Str)
    (h : ∀ p ∈ ret, validKey p.1 ∧ validValue p.2) :
    ∀ p ∈ process_pair ret k v, validKey p.1 ∧ validValue p.2 := by
  unfold process_pair
  by_cases hik : _is_key k = true
  · rw [if_pos hik]
    dsimp only
    by_cases hkk : key_label k ≠ []
    · rw [if_pos hkk]
      apply listUpdate_pred _ _ _ _ h
      refine ⟨key_label_validKey k hkk, ?_⟩
      by_cases hv : _is_key v = true
      · rw [if_pos hv]
        exact nil_validValue
      · rw [if_neg hv]
        exact value_label_validValue v
    · rw [if_neg hkk]
      exact h
  · rw [if_neg hik]
    exact h

/-- Every entry of a dict is key/value valid after one `sanitize_labels`
step. -/
theorem sanitize_step_valid (d : Dict) (p : Str × Str)
    (h : ∀ q ∈ d, validKey q.1 ∧ validValue q.2) :
    ∀ q ∈ (if key_label (some p.1) ≠ [] then
        listUpdate d (key_label (some p.1)) (value_label (some p.2)) else d),
      validKey q.1 ∧ validValue q.2 := by
  split
  · next hkk =>
    apply listUpdate_pred _ _ _ _ h
    exact ⟨key_label_validKey (some p.1) hkk, value_label_validValue (some p.2)⟩
  · exact h

/-! ### C5 -/

/-- C5: every key of the mappings built by `sanitize_labels` and
`script_args_to_labels` is a non-empty string of at most 63 characters over
`[a-z0-9_-]` starting with a letter, every value a possibly-empty string of at
most 63 characters over the same alphabet, and a pair whose key sanitizes to
the empty string is dropped entirely. -/
theorem c5_label_invariants :
    (∀ (pairs : List (Str × Str)) (p : Str × Str), p ∈ sanitize_labels pairs →
        validKey p.1 ∧ validValue p.2) ∧
    (∀ (args : List Str) (d : Dict), script_args_to_labels (some args) = some d →
        ∀ p ∈ d, validKey p.1 ∧ validValue p.2) ∧
    (∀ (pairs : List (Str × Str)) (k v : Str), key_label (some k) = [] →
        sanitize_labels (pairs ++ [(k, v)]) = sanitize_labels pairs) := by
  refine ⟨?_, ?_, ?_⟩
  · intro pairs
    exact foldl_preserve (fun d => ∀ p ∈ d, validKey p.1 ∧ validValue p.2) _
      (fun d p hd => sanitize_step_valid d p hd) pairs [] (by intro p hp; simp at hp)
  · intro args d h
    simp only [script_args_to_labels] at h
    split at h
    · obtain rfl : ([] : Dict) = d := Option.some.inj h
      intro p hp
      simp at hp
    · split at h
      · exact absurd h (by simp)
      · next pairs hpairs =>
        have hfold : ∀ p ∈ (pairs.foldl
            (fun r kv => process_pair r (some kv.1) (some kv.2)) []),
            validKey p.1 ∧ validValue p.2 :=
          foldl_preserve (fun dd => ∀ p ∈ dd, validKey p.1 ∧ validValue p.2) _
            (fun dd kv hd => process_pair_valid dd (some kv.1) (some kv.2) hd) pairs []
            (by intro p hp; simp at hp)
        split at h
        · obtain rfl := Option.some.inj h
          exact process_pair_valid _ _ _ hfold
        · obtain rfl := Option.some.inj h
          exact hfold
  · intro pairs k v h
    unfold sanitize_labels
    rw [List.foldl_append]
    simp [h]

/-- Witness for C5: the invariants at a concrete sanitized pair. -/
theorem c5_witness : validKey "foo".toList ∧ validValue "bar".toList :=
  c5_label_invariants.1 [("--foo".toList, "bar".toList)] ("foo".toList, "bar".toList)
    (by decide)

/-! ### Cartesian product helper lemmas -/

/-- Sum of a constant map. -/
theorem sum_map_const {α : Type} (xs : List α) (c : Nat) :
    (xs.map fun _ => c).sum = xs.length * c := by
  induction xs with
  | nil => simp
  | cons x xs ih =>
    simp only [List.map_cons, List.sum_cons, List.length_cons, ih]
    ring

/-- The product list has as many members as the product of the factor
lengths. -/
theorem listProduct_length {α : Type} (ls : List (List α)) :
    (listProduct ls).length = (ls.map List.length).prod := by
  induction ls with
  | nil => rfl
  | cons xs rest ih =>
    show (xs.flatMap fun x => (listProduct rest).map fun t => x :: t).length = _
    rw [List.length_flatMap]
    simp only [Function.comp_def, List.length_map]
    rw [sum_map_const, ih, List.map_cons, List.prod_cons]

/-- Every member of the product list picks one element per factor. -/
theorem listProduct_mem_length {α : Type} :
    ∀ (ls : List (List α)) (c : List α), c ∈ listProduct ls → c.length = ls.length := by
  intro ls
  induction ls with
  | nil =>
    intro c hc
    simp only [listProduct, List.mem_singleton] at hc
    simp [hc]
  | cons xs rest ih =>
    intro c hc
    simp only [listProduct, List.mem_flatMap, List.mem_map] at hc
    obtain ⟨x, _, t, ht, rfl⟩ := hc
    simp [ih t ht]

/-! ### C6 -/

/-- C6: `dict_product` emits exactly the product of the value-list lengths
many dictionaries (a non-list value counting as a one-element list), each
over exactly the key list of the input; an empty list value yields no
dictionary at all; and the worked example expands in order. -/
theorem c6_dict_product :
    (∀ (K α : Type) (m : List (K × PVal α)),
      (dict_product m).length = (m.map fun p => (wrap_v p.2).length).prod ∧
      (∀ d ∈ dict_product m, d.map Prod.fst = m.map Prod.fst) ∧
      (∀ k : K, (k, PVal.list ([] : List α)) ∈ m → dict_product m = [])) ∧
    dict_product [("a".toList, PVal.list [1, 2]), ("b".toList, PVal.scalar 3)] =
      [[("a".toList, 1), ("b".toList, 3)], [("a".toList, 2), ("b".toList, 3)]] := by
  refine ⟨?_, rfl⟩
  intro K α m
  have hlen : (dict_product m).length = (m.map fun p => (wrap_v p.2).length).prod := by
    show ((listProduct (m.map fun p => wrap_v p.2)).map _).length = _
    rw [List.length_map, listProduct_length, List.map_map]
    rfl
  refine ⟨hlen, ?_, ?_⟩
  · intro d hd
    simp only [dict_product, List.mem_map] at hd
    obtain ⟨combo, hcombo, rfl⟩ := hd
    have hclen : combo.length = m.length := by
      have h := listProduct_mem_length _ combo hcombo
      rwa [List.length_map] at h
    apply List.map_fst_zip
    rw [hclen, List.length_map]
  · intro k hk
    have h0 : (0 : Nat) ∈ (m.map fun p => (wrap_v p.2).length) :=
      List.mem_map.mpr ⟨(k, PVal.list []), hk, rfl⟩
    have h1 : (dict_product m).length = 0 := by
      rw [hlen]
      exact List.prod_eq_zero h0
    exact List.length_eq_zero.mp h1

/-- Witness for C6: a key bound to the empty list yields zero expanded
configurations. -/
theorem c6_witness : dict_product [((0 : Nat), PVal.list ([] : List Nat))] = [] :=
  (c6_dict_product.1 Nat Nat [(0, PVal.list [])]).2.2 0 (List.mem_singleton.mpr rfl)

/-! ### Inversion helper lemmas -/

/-- Membership after a Python set `add`. -/
theorem setAdd_mem {α : Type} [DecidableEq α] (s : List α) (x y : α) :
    y ∈ setAdd s x ↔ y = x ∨ y ∈ s := by
  unfold setAdd
  split
  · next hx =>
    constructor
    · exact Or.inr
    · rintro (rfl | h)
      · exact hx
      · exact h
  · simp [List.mem_append, or_comm]

/-- The value `v` carries key `k` in the inverted table. -/
def memInv {K V : Type} [DecidableEq K] [DecidableEq V] (r : List (V × List K))
    (v : V) (k : K) : Prop :=
  match lookup r v with
  | some s => k ∈ s
  | none => False

/-- The inverted table has an entry for value `v`. -/
def hasVal {K V : Type} [DecidableEq K] [DecidableEq V] (r : List (V × List K))
    (v : V) : Prop :=
  (lookup r v).isSome = true

/-- `memInv` on the empty inverted table. -/
theorem memInv_nil {K V : Type} [DecidableEq K] [DecidableEq V] (w : V) (c : K) :
    memInv ([] : List (V × List K)) w c ↔ False :=
  Iff.rfl

/-- `memInv` on a cons cell. -/
theorem memInv_cons {K V : Type} [DecidableEq K] [DecidableEq V] (p : V × List K)
    (ps : List (V × List K)) (w : V) (c : K) :
    memInv (p :: ps) w c ↔ (p.1 = w ∧ c ∈ p.2) ∨ (p.1 ≠ w ∧ memInv ps w c) := by
  unfold memInv
  rw [show lookup (p :: ps) w = if p.1 = w then some p.2 else lookup ps w from rfl]
  by_cases h : p.1 = w
  · rw [if_pos h]
    simp [h]
  · rw [if_neg h]
    simp [h]

/-- `hasVal` on the empty inverted table. -/
theorem hasVal_nil {K V : Type} [DecidableEq K] [DecidableEq V] (w : V) :
    hasVal ([] : List (V × List K)) w ↔ False := by
  simp [hasVal, lookup]

/-- `hasVal` on a cons cell. -/
theorem hasVal_cons {K V : Type} [DecidableEq K] [DecidableEq V] (p : V × List K)
    (ps : List (V × List K)) (w : V) :
    hasVal (p :: ps) w ↔ p.1 = w ∨ hasVal ps w := by
  unfold hasVal
  rw [show lookup (p :: ps) w = if p.1 = w then some p.2 else lookup ps w from rfl]
  by_cases h : p.1 = w
  · rw [if_pos h]
    simp [h]
  · rw [if_neg h]
    simp [h]

/-- Effect of one `invInsert` on `memInv`. -/
theorem invInsert_memInv {K V : Type} [DecidableEq K] [DecidableEq V]
    (r : List (V × List K)) (v : V) (k : K) (w : V) (c : K) :
    memInv (invInsert r v k) w c ↔ (w = v ∧ c = k) ∨ memInv r w c := by
  induction r with
  | nil =>
    show memInv [(v, [k])] w c ↔ _
    simp only [memInv_cons, memInv_nil, List.mem_singleton, List.not_mem_nil]
    constructor
    · rintro (⟨rfl, rfl⟩ | ⟨_, hfalse⟩)
      · exact Or.inl ⟨rfl, rfl⟩
      · exact hfalse.elim
    · rintro (⟨rfl, rfl⟩ | hfalse)
      · exact Or.inl ⟨rfl, rfl⟩
      · exact hfalse.elim
  | cons p ps ih =>
    simp only [invInsert]
    split
    · next hp =>
      subst hp
      simp only [memInv_cons, setAdd_mem]
      constructor
      · rintro (⟨hw, rfl | hc⟩ | ⟨hw, hm⟩)
        · exact Or.inl ⟨hw.symm, rfl⟩
        · exact Or.inr (Or.inl ⟨hw, hc⟩)
        · exact Or.inr (Or.inr ⟨hw, hm⟩)
      · rintro (⟨rfl, rfl⟩ | ⟨hw, hc⟩ | ⟨hw, hm⟩)
        · exact Or.inl ⟨rfl, Or.inl rfl⟩
        · exact Or.inl ⟨hw, Or.inr hc⟩
        · exact Or.inr ⟨hw, hm⟩
    · next hp =>
      simp only [memInv_cons, ih]
      constructor
      · rintro (⟨hw, hc⟩ | ⟨hw, ⟨rfl, rfl⟩ | hm⟩)
        · exact Or.inr (Or.inl ⟨hw, hc⟩)
        · exact Or.inl ⟨rfl, rfl⟩
        · exact Or.inr (Or.inr ⟨hw, hm⟩)
      · rintro (⟨rfl, rfl⟩ | ⟨hw, hc⟩ | ⟨hw, hm⟩)
        · exact Or.inr ⟨hp, Or.inl ⟨rfl, rfl⟩⟩
        · exact Or.inl ⟨hw, hc⟩
        · exact Or.inr ⟨hw, Or.inr hm⟩

/-- Effect of one `invInsert` on `hasVal`. -/
theorem invInsert_hasVal {K V : Type} [DecidableEq K] [DecidableEq V]
    (r : List (V × List K)) (v : V) (k : K) (w : V) :
    hasVal (invInsert r v k) w ↔ w = v ∨ hasVal r w := by
  induction r with
  | nil =>
    show hasVal [(v, [k])] w ↔ _
    simp only [hasVal_cons, hasVal_nil, or_false]
    exact eq_comm
  | cons p ps ih =>
    simp only [invInsert]
    split
    · next hp =>
      subst hp
      simp only [hasVal_cons]
      constructor
      · rintro (h | h)
        · exact Or.inr (Or.inl h)
        · exact Or.inr (Or.inr h)
      · rintro (rfl | h | h)
        · exact Or.inl rfl
        · exact Or.inl h
        · exact Or.inr h
    · next hp =>
      simp only [hasVal_cons, ih]
      tauto

/-- The inner fold of `invertm` over one key's iterable. -/
theorem memInv_foldl_inner {K V : Type} [DecidableEq K] [DecidableEq V]
    (vs : List V) (k : K) (w : V) (c : K) :
    ∀ acc : List (V × List K),
      memInv (vs.foldl (fun r v => invInsert r v k) acc) w c ↔
        (w ∈ vs ∧ c = k) ∨ memInv acc w c := by
  induction vs with
  | nil => simp
  | cons x vs ih =>
    intro acc
    simp only [List.foldl_cons, ih, invInsert_memInv, List.mem_cons]
    tauto

/-- The inner fold of `invertm`, `hasVal` version. -/
theorem hasVal_foldl_inner {K V : Type} [DecidableEq K] [DecidableEq V]
    (vs : List V) (k : K) (w : V) :
    ∀ acc : List (V × List K),
      hasVal (vs.foldl (fun r v => invInsert r v k) acc) w ↔ w ∈ vs ∨ hasVal acc w := by
  induction vs with
  | nil => simp
  | cons x vs ih =>
    intro acc
    simp only [List.foldl_cons, ih, invInsert_hasVal, List.mem_cons]
    tauto

/-- The outer fold of `invertm`. -/
theorem memInv_invertm_aux {K V : Type} [DecidableEq K] [DecidableEq V]
    (t : List (K × List V)) (v : V) (k : K) :
    ∀ acc : List (V × List K),
      memInv (t.foldl (fun ret kvs => kvs.2.foldl (fun r x => invInsert r x kvs.1) ret) acc)
          v k ↔
        (∃ p ∈ t, p.1 = k ∧ v ∈ p.2) ∨ memInv acc v k := by
  induction t with
  | nil => simp
  | cons q t ih =>
    intro acc
    simp only [List.foldl_cons, ih, memInv_foldl_inner, List.mem_cons]
    constructor
    · rintro (⟨p, hp, hpk, hv⟩ | ⟨hv, rfl⟩ | h)
      · exact Or.inl ⟨p, Or.inr hp, hpk, hv⟩
      · exact Or.inl ⟨q, Or.inl rfl, rfl, hv⟩
      · exact Or.inr h
    · rintro (⟨p, rfl | hp, hpk, hv⟩ | h)
      · exact Or.inr (Or.inl ⟨hv, hpk.symm⟩)
      · exact Or.inl ⟨p, hp, hpk, hv⟩
      · exact Or.inr (Or.inr h)

/-- The outer fold of `invertm`, `hasVal` version. -/
theorem hasVal_invertm_aux {K V : Type} [DecidableEq K] [DecidableEq V]
    (t : List (K × List V)) (v : V) :
    ∀ acc : List (V × List K),
      hasVal (t.foldl (fun ret kvs => kvs.2.foldl (fun r x => invInsert r x kvs.1) ret) acc)
          v ↔
        (∃ p ∈ t, v ∈ p.2) ∨ hasVal acc v := by
  induction t with
  | nil => simp
  | cons q t ih =>
    intro acc
    simp only [List.foldl_cons, ih, hasVal_foldl_inner, List.mem_cons]
    constructor
    · rintro (⟨p, hp, hv⟩ | hv | h)
      · exact Or.inl ⟨p, Or.inr hp, hv⟩
      · exact Or.inl ⟨q, Or.inl rfl, hv⟩
      · exact Or.inr h
    · rintro (⟨p, rfl | hp, hv⟩ | h)
      · exact Or.inr (Or.inl hv)
      · exact Or.inl ⟨p, hp, hv⟩
      · exact Or.inr (Or.inr h)

/-! ### C9 -/

/-- C9: the inverted table maps a value `v` to key `k` exactly when some
entry of the input holds key `k` with `v` in its iterable; it has an entry
for `v` exactly when `v` occurs in some iterable (no other entries); and the
worked example inverts as claimed. -/
theorem c9_invertm_characterization :
    (∀ (K V : Type) (instK : DecidableEq K) (instV : DecidableEq V)
        (t : List (K × List V)) (v : V) (k : K),
      (memInv (invertm t) v k ↔ ∃ p ∈ t, p.1 = k ∧ v ∈ p.2) ∧
      (hasVal (invertm t) v ↔ ∃ p ∈ t, v ∈ p.2)) ∧
    invertm [("x".toList, ["a".toList, "b".toList]), ("y".toList, ["b".toList])] =
      [("a".toList, ["x".toList]), ("b".toList, ["x".toList, "y".toList])] := by
  refine ⟨?_, rfl⟩
  intro K V instK instV t v k
  constructor
  · rw [show invertm t =
        t.foldl (fun ret kvs => kvs.2.foldl (fun r x => invInsert r x kvs.1) ret) [] from rfl]
    rw [memInv_invertm_aux]
    simp [memInv, lookup]
  · rw [show invertm t =
        t.foldl (fun ret kvs => kvs.2.foldl (fun r x => invInsert r x kvs.1) ret) [] from rfl]
    rw [hasVal_invertm_aux]
    simp [hasVal, lookup]

/-! ### Dict update helper lemmas -/

/-- Lookup after a Python dict assignment. -/
theorem lookup_listUpdate {K V : Type} [DecidableEq K] (d : List (K × V)) (k : K) (v : V)
    (x : K) : lookup (listUpdate d k v) x = if x = k then some v else lookup d x := by
  induction d with
  | nil =>
    show (if k = x then some v else none) = _
    by_cases h : x = k
    · rw [if_pos h.symm, if_pos h]
    · rw [if_neg (fun hh => h hh.symm), if_neg h]
      rfl
  | cons p ps ih =>
    show lookup (if p.1 = k then (p.1, v) :: ps else p :: listUpdate ps k v) x = _
    by_cases hp : p.1 = k
    · rw [if_pos hp]
      show (if p.1 = x then some v else lookup ps x) = _
      by_cases hx : x = k
      · rw [if_pos (hp.trans hx.symm), if_pos hx]
      · rw [if_neg (fun hh => hx (hh.symm.trans hp)), if_neg hx]
        show _ = (if p.1 = x then some p.2 else lookup ps x)
        rw [if_neg (fun hh => hx (hh.symm.trans hp))]
    · rw [if_neg hp]
      show (if p.1 = x then some p.2 else lookup (listUpdate ps k v) x) = _
      by_cases hpx : p.1 = x
      · have hx : ¬x = k := fun hh => hp (hpx.trans hh)
        rw [if_pos hpx, if_neg hx]
        show _ = (if p.1 = x then some p.2 else lookup ps x)
        rw [if_pos hpx]
      · rw [if_neg hpx, ih]
        by_cases hx : x = k
        · rw [if_pos hx, if_pos hx]
        · rw [if_neg hx, if_neg hx]
          show _ = (if p.1 = x then some p.2 else lookup ps x)
          rw [if_neg hpx]

/-- The key list of a dict. -/
def keysOf {K V : Type} (d : List (K × V)) : List K := d.map Prod.fst

/-- Dict assignment either keeps the key list or appends the fresh key. -/
theorem listUpdate_keys {K V : Type} [DecidableEq K] (d : List (K × V)) (k : K) (v : V) :
    keysOf (listUpdate d k v) =
      if k ∈ keysOf d then keysOf d else keysOf d ++ [k] := by
  induction d with
  | nil => simp [listUpdate, keysOf]
  | cons p ps ih =>
    show keysOf (if p.1 = k then (p.1, v) :: ps else p :: listUpdate ps k v) = _
    by_cases hp : p.1 = k
    · rw [if_pos hp]
      have hmem : k ∈ keysOf (p :: ps) := List.mem_cons.mpr (Or.inl hp.symm)
      rw [if_pos hmem]
      rfl
    · rw [if_neg hp]
      show p.1 :: keysOf (listUpdate ps k v) = _
      rw [ih]
      have hk : (k ∈ keysOf (p :: ps)) ↔ (k ∈ keysOf ps) := by
        show k ∈ p.1 :: keysOf ps ↔ _
        rw [List.mem_cons]
        constructor
        · rintro (hh | hh)
          · exact absurd hh.symm hp
          · exact hh
        · exact Or.inr
      by_cases hmem : k ∈ keysOf ps
      · rw [if_pos hmem, if_pos (hk.mpr hmem)]
        rfl
      · rw [if_neg hmem, if_neg (fun hh => hmem (hk.mp hh))]
        rfl

/-- Dict assignment preserves distinctness of keys. -/
theorem listUpdate_keys_nodup {K V : Type} [DecidableEq K] (d : List (K × V)) (k : K)
    (v : V) (h : (keysOf d).Nodup) : (keysOf (listUpdate d k v)).Nodup := by
  rw [listUpdate_keys]
  split
  · exact h
  · next hk => simp [List.nodup_append, h, hk]

/-- The keys of a label dict are pairwise distinct. -/
def keysNodup (d : Dict) : Prop := (keysOf d).Nodup

/-- `process_pair` preserves key distinctness. -/
theorem process_pair_keysNodup (d : Dict) (k v : Option Str) (h : keysNodup d) :
    keysNodup (process_pair d k v) := by
  unfold process_pair
  by_cases hik : _is_key k = true
  · rw [if_pos hik]
    dsimp only
    by_cases hkk : key_label k ≠ []
    · rw [if_pos hkk]
      exact listUpdate_keys_nodup _ _ _ h
    · rw [if_neg hkk]
      exact h
  · rw [if_neg hik]
    exact h

/-- Any predicate preserved by `process_pair` and true of the empty dict holds
of every successful `script_args_to_labels` result. -/
theorem script_args_result_pred (P : Dict → Prop) (hP0 : P [])
    (hstep : ∀ (d : Dict) (k v : Option Str), P d → P (process_pair d k v))
    (args : List Str) (d : Dict) (h : script_args_to_labels (some args) = some d) :
    P d := by
  simp only [script_args_to_labels] at h
  split at h
  · obtain rfl := Option.some.inj h
    exact hP0
  · split at h
    · exact absurd h (by simp)
    · next pairs hpairs =>
      have hfold := foldl_preserve P
        (fun r kv => process_pair r (some kv.1) (some kv.2))
        (fun a kv ha => hstep a (some kv.1) (some kv.2) ha) pairs [] hP0
      split at h
      · obtain rfl := Option.some.inj h
        exact hstep _ _ _ hfold
      · obtain rfl := Option.some.inj h
        exact hfold

/-- Lookup in `sanitize_labels` returns the sanitized value of the last pair
whose sanitized key matches. -/
theorem sanitize_labels_lookup (pairs : List (Str × Str)) (c : Str) (hc : c ≠ []) :
    lookup (sanitize_labels pairs) c =
      (pairs.reverse.find? fun p => decide (key_label (some p.1) = c)).map
        fun p => value_label (some p.2) := by
  induction pairs using List.reverseRecOn with
  | nil => rfl
  | append_singleton ps p ih =>
    have hstep : sanitize_labels (ps ++ [p]) =
        if key_label (some p.1) ≠ [] then
          listUpdate (sanitize_labels ps) (key_label (some p.1)) (value_label (some p.2))
        else sanitize_labels ps := by
      unfold sanitize_labels
      rw [List.foldl_append]
      rfl
    rw [hstep, List.reverse_append, List.reverse_singleton, List.singleton_append]
    by_cases hkc : key_label (some p.1) = c
    · have hkne : key_label (some p.1) ≠ [] := by
        rw [hkc]
        exact hc
      rw [if_pos hkne, lookup_listUpdate, if_pos hkc.symm,
        List.find?_cons_of_pos _ (by simp [hkc])]
      rfl
    · rw [List.find?_cons_of_neg _ (by simp [hkc])]
      by_cases hk0 : key_label (some p.1) ≠ []
      · rw [if_pos hk0, lookup_listUpdate, if_neg (fun hh => hkc hh.symm)]
        exact ih
      · rw [if_neg hk0]
        exact ih

/-! ### C10 -/

/-- C10: when sanitized keys collide the key appears exactly once (keys stay
pairwise distinct) bound to the sanitized value of the last pair processed;
in `script_args_to_labels` a trailing flag whose sanitized key collides with
an earlier windowed pair overwrites that pair's value with the empty
string. -/
theorem c10_last_write_wins :
    (∀ (pairs : List (Str × Str)) (c : Str), c ≠ [] →
      lookup (sanitize_labels pairs) c =
        (pairs.reverse.find? fun p => decide (key_label (some p.1) = c)).map
          fun p => value_label (some p.2)) ∧
    (∀ pairs : List (Str × Str), keysNodup (sanitize_labels pairs)) ∧
    (∀ (args : List Str) (d : Dict), script_args_to_labels (some args) = some d →
        keysNodup d) ∧
    script_args_to_labels (some ["--foo".toList, "bar".toList, "--foo".toList]) =
      some [("foo".toList, [])] := by
  refine ⟨sanitize_labels_lookup, ?_, ?_, rfl⟩
  · intro pairs
    apply foldl_preserve keysNodup _ _ pairs [] (by simp [keysNodup, keysOf])
    intro d p hd
    dsimp only
    split
    · exact listUpdate_keys_nodup _ _ _ hd
    · exact hd
  · intro args d h
    exact script_args_result_pred keysNodup (by simp [keysNodup, keysOf])
      process_pair_keysNodup args d h

/-- Witness for C10: two raw pairs with the same sanitized key collapse to the
last value. -/
theorem c10_witness :
    lookup (sanitize_labels [("a".toList, "b".toList), ("a".toList, "c".toList)])
      "a".toList = some "c".toList :=
  (c10_last_write_wins.1 [("a".toList, "b".toList), ("a".toList, "c".toList)]
      "a".toList (by decide)).trans (by decide)

/-! ### Reorder helper lemmas -/

/-- The inner table binds `x` under key `b`. -/
def mem2 {K V : Type} [DecidableEq K] [DecidableEq V] (m : List (K × List V)) (b : K)
    (x : V) : Prop :=
  match lookup m b with
  | some s => x ∈ s
  | none => False

/-- The regrouped table binds `x` under outer key `a` and inner key `b`. -/
def mem3 {K V : Type} [DecidableEq K] [DecidableEq V]
    (r : List (K × List (K × List V))) (a b : K) (x : V) : Prop :=
  match lookup r a with
  | some m => mem2 m b x
  | none => False

/-- `mem3` on the empty table. -/
theorem mem3_nil {K V : Type} [DecidableEq K] [DecidableEq V] (a b : K) (x : V) :
    mem3 ([] : List (K × List (K × List V))) a b x ↔ False :=
  Iff.rfl

/-- `mem3` on a cons cell. -/
theorem mem3_cons {K V : Type} [DecidableEq K] [DecidableEq V]
    (p : K × List (K × List V)) (ps : List (K × List (K × List V))) (a b : K) (x : V) :
    mem3 (p :: ps) a b x ↔ (p.1 = a ∧ mem2 p.2 b x) ∨ (p.1 ≠ a ∧ mem3 ps a b x) := by
  unfold mem3
  rw [show lookup (p :: ps) a = if p.1 = a then some p.2 else lookup ps a from rfl]
  by_cases h : p.1 = a
  · rw [if_pos h]
    simp [h]
  · rw [if_neg h]
    simp [h]

/-- `innerAdd` is the same operation as `invInsert` at swapped type
parameters. -/
theorem innerAdd_eq_invInsert {K V : Type} [DecidableEq K] [DecidableEq V]
    (m : List (K × List V)) (b : K) (x : V) : innerAdd m b x = invInsert m b x := by
  induction m with
  | nil => rfl
  | cons p ps ih => simp only [innerAdd, invInsert, ih]

/-- Effect of one `innerAdd` on `mem2`. -/
theorem innerAdd_mem2 {K V : Type} [DecidableEq K] [DecidableEq V]
    (m : List (K × List V)) (b : K) (x : V) (c : K) (y : V) :
    mem2 (innerAdd m b x) c y ↔ (c = b ∧ y = x) ∨ mem2 m c y := by
  rw [innerAdd_eq_invInsert]
  exact invInsert_memInv m b x c y

/-- Effect of one `insert3` on `mem3`. -/
theorem insert3_mem3 {K V : Type} [DecidableEq K] [DecidableEq V]
    (r : List (K × List (K × List V))) (a b : K) (x : V) (c d : K) (y : V) :
    mem3 (insert3 r a b x) c d y ↔ (c = a ∧ d = b ∧ y = x) ∨ mem3 r c d y := by
  induction r with
  | nil =>
    show mem3 [(a, [(b, [x])])] c d y ↔ _
    simp only [mem3_cons, mem3_nil, and_false, or_false, iff_false, not_and, mem2,
      lookup]
    by_cases ha : a = c
    · subst ha
      simp only [if_pos rfl] at *
      by_cases hb : b = d
      · subst hb
        simp [List.mem_singleton, eq_comm]
      · have hd : ¬(d = b) := fun hh => hb hh.symm
        simp [hb, hd]
    · have hc : ¬(c = a) := fun hh => ha hh.symm
      simp [ha, hc]
  | cons p ps ih =>
    simp only [insert3]
    split
    · next hp =>
      subst hp
      simp only [mem3_cons, innerAdd_mem2]
      constructor
      · rintro (⟨hw, ⟨rfl, rfl⟩ | hm⟩ | ⟨hw, hm⟩)
        · exact Or.inl ⟨hw.symm, rfl, rfl⟩
        · exact Or.inr (Or.inl ⟨hw, hm⟩)
        · exact Or.inr (Or.inr ⟨hw, hm⟩)
      · rintro (⟨rfl, rfl, rfl⟩ | ⟨hw, hm⟩ | ⟨hw, hm⟩)
        · exact Or.inl ⟨rfl, Or.inl ⟨rfl, rfl⟩⟩
        · exact Or.inl ⟨hw, Or.inr hm⟩
        · exact Or.inr ⟨hw, hm⟩
    · next hp =>
      simp only [mem3_cons, ih]
      constructor
      · rintro (⟨hw, hm⟩ | ⟨hw, ⟨rfl, rfl, rfl⟩ | hm⟩)
        · exact Or.inr (Or.inl ⟨hw, hm⟩)
        · exact Or.inl ⟨rfl, rfl, rfl⟩
        · exact Or.inr (Or.inr ⟨hw, hm⟩)
      · rintro (⟨rfl, rfl, rfl⟩ | ⟨hw, hm⟩ | ⟨hw, hm⟩)
        · exact Or.inr ⟨hp, Or.inl ⟨rfl, rfl, rfl⟩⟩
        · exact Or.inl ⟨hw, hm⟩
        · exact Or.inr ⟨hw, Or.inr hm⟩

/-- Innermost fold of `reorderm`: writes over one value iterable. -/
theorem mem3_foldl_level1 {α : Type} [DecidableEq α] (vs : List α) (f g e : α → α)
    (a b x : α) :
    ∀ acc, mem3 (vs.foldl (fun r v => insert3 r (f v) (g v) (e v)) acc) a b x ↔
      (∃ v ∈ vs, a = f v ∧ b = g v ∧ x = e v) ∨ mem3 acc a b x := by
  induction vs with
  | nil => simp
  | cons w vs ih =>
    intro acc
    rw [List.foldl_cons, ih]
    constructor
    · rintro (⟨v, hv, he⟩ | hm)
      · exact Or.inl ⟨v, List.mem_cons_of_mem _ hv, he⟩
      · rcases (insert3_mem3 acc (f w) (g w) (e w) a b x).mp hm with ⟨h1, h2, h3⟩ | hm2
        · exact Or.inl ⟨w, List.mem_cons_self _ _, h1, h2, h3⟩
        · exact Or.inr hm2
    · rintro (⟨v, hv, he⟩ | hm)
      · rcases List.mem_cons.mp hv with rfl | hv2
        · exact Or.inr ((insert3_mem3 acc (f v) (g v) (e v) a b x).mpr (Or.inl he))
        · exact Or.inl ⟨v, hv2, he⟩
      · exact Or.inr ((insert3_mem3 acc (f w) (g w) (e w) a b x).mpr (Or.inr hm))

/-- Middle fold of `reorderm`: writes over one inner mapping. -/
theorem mem3_foldl_level2 {α : Type} [DecidableEq α] (m : List (α × List α)) (k : α)
    (o : Fin 3 × Fin 3 × Fin 3) (a b x : α) :
    ∀ acc, mem3 (m.foldl (fun r2 kv => kv.2.foldl (fun r3 v =>
        insert3 r3 (sel3 (k, kv.1, v) o.1) (sel3 (k, kv.1, v) o.2.1)
          (sel3 (k, kv.1, v) o.2.2)) r2) acc) a b x ↔
      (∃ kv ∈ m, ∃ v ∈ kv.2, a = sel3 (k, kv.1, v) o.1 ∧ b = sel3 (k, kv.1, v) o.2.1 ∧
        x = sel3 (k, kv.1, v) o.2.2) ∨ mem3 acc a b x := by
  induction m with
  | nil => simp
  | cons q m ih =>
    intro acc
    rw [List.foldl_cons, ih]
    constructor
    · rintro (⟨kv, hkv, hrest⟩ | hm)
      · exact Or.inl ⟨kv, List.mem_cons_of_mem _ hkv, hrest⟩
      · rcases (mem3_foldl_level1 q.2 (fun v => sel3 (k, q.1, v) o.1)
            (fun v => sel3 (k, q.1, v) o.2.1) (fun v => sel3 (k, q.1, v) o.2.2)
            a b x acc).mp hm with ⟨v, hv, he⟩ | hm2
        · exact Or.inl ⟨q, List.mem_cons_self _ _, v, hv, he⟩
        · exact Or.inr hm2
    · rintro (⟨kv, hkv, hrest⟩ | hm)
      · rcases List.mem_cons.mp hkv with rfl | hkv2
        · exact Or.inr ((mem3_foldl_level1 kv.2 (fun v => sel3 (k, kv.1, v) o.1)
            (fun v => sel3 (k, kv.1, v) o.2.1) (fun v => sel3 (k, kv.1, v) o.2.2)
            a b x acc).mpr (Or.inl hrest))
        · exact Or.inl ⟨kv, hkv2, hrest⟩
      · exact Or.inr ((mem3_foldl_level1 q.2 (fun v => sel3 (k, q.1, v) o.1)
          (fun v => sel3 (k, q.1, v) o.2.1) (fun v => sel3 (k, q.1, v) o.2.2)
          a b x acc).mpr (Or.inr hm))

/-- Outer fold of `reorderm`. -/
theorem mem3_reorderm_aux {α : Type} [DecidableEq α]
    (t : List (α × List (α × List α))) (o : Fin 3 × Fin 3 × Fin 3) (a b x : α) :
    ∀ acc, mem3 (t.foldl (fun ret km => km.2.foldl (fun r2 kv =>
        kv.2.foldl (fun r3 v =>
          insert3 r3 (sel3 (km.1, kv.1, v) o.1) (sel3 (km.1, kv.1, v) o.2.1)
            (sel3 (km.1, kv.1, v) o.2.2)) r2) ret) acc) a b x ↔
      (∃ km ∈ t, ∃ kv ∈ km.2, ∃ v ∈ kv.2,
        a = sel3 (km.1, kv.1, v) o.1 ∧ b = sel3 (km.1, kv.1, v) o.2.1 ∧
        x = sel3 (km.1, kv.1, v) o.2.2) ∨ mem3 acc a b x := by
  induction t with
  | nil => simp
  | cons q t ih =>
    intro acc
    rw [List.foldl_cons, ih]
    constructor
    · rintro (⟨km, hkm, hrest⟩ | hm)
      · exact Or.inl ⟨km, List.mem_cons_of_mem _ hkm, hrest⟩
      · rcases (mem3_foldl_level2 q.2 q.1 o a b x acc).mp hm with ⟨kv, hkv, he⟩ | hm2
        · exact Or.inl ⟨q, List.mem_cons_self _ _, kv, hkv, he⟩
        · exact Or.inr hm2
    · rintro (⟨km, hkm, hrest⟩ | hm)
      · rcases List.mem_cons.mp hkm with rfl | hkm2
        · exact Or.inr ((mem3_foldl_level2 km.2 km.1 o a b x acc).mpr (Or.inl hrest))
        · exact Or.inl ⟨km, hkm2, hrest⟩
      · exact Or.inr ((mem3_foldl_level2 q.2 q.1 o a b x acc).mpr (Or.inr hm))

/-- `setAdd` keeps a set duplicate-free. -/
theorem setAdd_nodup {α : Type} [DecidableEq α] (s : List α) (x : α) (h : s.Nodup) :
    (setAdd s x).Nodup := by
  unfold setAdd
  split
  · exact h
  · next hx => simp [List.nodup_append, h, hx]

/-- `innerAdd` keeps every leaf set duplicate-free. -/
theorem innerAdd_leaves {K V : Type} [DecidableEq K] [DecidableEq V]
    (m : List (K × List V)) (b : K) (x : V) (h : ∀ q ∈ m, q.2.Nodup) :
    ∀ q ∈ innerAdd m b x, q.2.Nodup := by
  induction m with
  | nil =>
    intro q hq
    rw [List.mem_singleton.mp hq]
    simp
  | cons p ps ih =>
    simp only [innerAdd]
    split
    · intro q hq
      rcases List.mem_cons.mp hq with rfl | hq2
      · exact setAdd_nodup _ _ (h p (List.mem_cons_self _ _))
      · exact h q (List.mem_cons_of_mem _ hq2)
    · intro q hq
      rcases List.mem_cons.mp hq with rfl | hq2
      · exact h q (List.mem_cons_self _ _)
      · exact ih (fun r hr => h r (List.mem_cons_of_mem _ hr)) q hq2

/-- `insert3` keeps every leaf set duplicate-free. -/
theorem insert3_leaves {K V : Type} [DecidableEq K] [DecidableEq V]
    (r : List (K × List (K × List V))) (a b : K) (x : V)
    (h : ∀ p ∈ r, ∀ q ∈ p.2, q.2.Nodup) :
    ∀ p ∈ insert3 r a b x, ∀ q ∈ p.2, q.2.Nodup := by
  induction r with
  | nil =>
    intro p hp q hq
    rw [List.mem_singleton.mp hp] at hq
    rw [List.mem_singleton.mp hq]
    simp
  | cons w ps ih =>
    simp only [insert3]
    split
    · intro p hp
      rcases List.mem_cons.mp hp with rfl | hp2
      · exact innerAdd_leaves _ _ _ (h w (List.mem_cons_self _ _))
      · exact h p (List.mem_cons_of_mem _ hp2)
    · intro p hp
      rcases List.mem_cons.mp hp with rfl | hp2
      · exact h p (List.mem_cons_self _ _)
      · exact ih (fun r2 hr => h r2 (List.mem_cons_of_mem _ hr)) p hp2

/-- Every leaf set of `reorderm` is duplicate-free. -/
theorem reorderm_leavesNodup {α : Type} [DecidableEq α]
    (t : List (α × List (α × List α))) (o : Fin 3 × Fin 3 × Fin 3) :
    ∀ p ∈ reorderm t o, ∀ q ∈ p.2, q.2.Nodup := by
  unfold reorderm
  refine foldl_preserve
    (fun r : List (α × List (α × List α)) => ∀ p ∈ r, ∀ q ∈ p.2, q.2.Nodup) _
    (fun ret km hret => ?_) t [] (by intro p hp; simp at hp)
  refine foldl_preserve
    (fun r : List (α × List (α × List α)) => ∀ p ∈ r, ∀ q ∈ p.2, q.2.Nodup) _
    (fun r2 kv hr2 => ?_) km.2 ret hret
  refine foldl_preserve
    (fun r : List (α × List (α × List α)) => ∀ p ∈ r, ∀ q ∈ p.2, q.2.Nodup) _
    (fun r3 v hr3 => ?_) kv.2 r2 hr2
  exact insert3_leaves _ _ _ _ hr3

/-! ### C8 -/

/-- C8: for every permutation `order` of the three fields, `x` lies in
`reorderm table order` under keys `(a, b)` exactly when some triple
`(k1, k2, v)` occurs in the input with `(a, b, x)` being its fields selected
by `order`; leaf sets stay duplicate-free, so duplicates collapse. -/
theorem c8_reorderm_regroup {α : Type} [DecidableEq α]
    (t : List (α × List (α × List α))) (o : Fin 3 × Fin 3 × Fin 3)
    (hperm : o.1 ≠ o.2.1 ∧ o.1 ≠ o.2.2 ∧ o.2.1 ≠ o.2.2) :
    (∀ a b x : α, mem3 (reorderm t o) a b x ↔
      ∃ km ∈ t, ∃ kv ∈ km.2, ∃ v ∈ kv.2,
        a = sel3 (km.1, kv.1, v) o.1 ∧ b = sel3 (km.1, kv.1, v) o.2.1 ∧
        x = sel3 (km.1, kv.1, v) o.2.2) ∧
    (∀ p ∈ reorderm t o, ∀ q ∈ p.2, q.2.Nodup) := by
  constructor
  · intro a b x
    unfold reorderm
    exact (mem3_reorderm_aux t o a b x []).trans (by simp [mem3_nil])
  · exact reorderm_leavesNodup t o

/-- Witness for C8: the identity permutation regroups the unique triple of a
one-triple table. -/
theorem c8_witness : mem3 (reorderm [((1 : Nat), [(2, [3])])] (0, 1, 2)) 1 2 3 :=
  ((c8_reorderm_regroup [((1 : Nat), [(2, [3])])] (0, 1, 2) (by decide)).1 1 2 3).mpr
    ⟨(1, [(2, [3])]), by decide, (2, [3]), by decide, 3, by decide, rfl, rfl, rfl⟩

/-! ### Flip helper lemmas -/

/-- Left-biased combination of optional results. -/
def oor {γ : Type} : Option γ → Option γ → Option γ
  | some v, _ => some v
  | none, d => d

/-- `oor` with an empty fallback. -/
theorem oor_none {γ : Type} (o : Option γ) : oor o none = o := by
  cases o <;> rfl

/-- `oor` is associative. -/
theorem oor_assoc {γ : Type} (o1 o2 o3 : Option γ) :
    oor (oor o1 o2) o3 = oor o1 (oor o2 o3) := by
  cases o1 <;> rfl

/-- Two-level lookup `t[a][b]`. -/
def lookup2 {K V : Type} [DecidableEq K] (t : List (K × List (K × V))) (a b : K) :
    Option V :=
  match lookup t a with
  | some m => lookup m b
  | none => none

/-- `lookup2` on a cons cell. -/
theorem lookup2_cons {K V : Type} [DecidableEq K] (p : K × List (K × V))
    (ps : List (K × List (K × V))) (a b : K) :
    lookup2 (p :: ps) a b = if p.1 = a then lookup p.2 b else lookup2 ps a b := by
  unfold lookup2
  rw [show lookup (p :: ps) a = if p.1 = a then some p.2 else lookup ps a from rfl]
  by_cases h : p.1 = a
  · rw [if_pos h, if_pos h]
  · rw [if_neg h, if_neg h]

/-- The value written last for key `b` in a sequence of dict assignments. -/
def lookupLast {K V : Type} [DecidableEq K] : List (K × V) → K → Option V
  | [], _ => none
  | p :: ps, b =>
    match lookupLast ps b with
    | some v => some v
    | none => if p.1 = b then some p.2 else none

/-- The value written last for the pair `(a, b)` across a two-level table. -/
def lookupLast2 {K V : Type} [DecidableEq K] :
    List (K × List (K × V)) → K → K → Option V
  | [], _, _ => none
  | p :: ps, a, b =>
    match lookupLast2 ps a b with
    | some v => some v
    | none => if p.1 = a then lookupLast p.2 b else none

/-- `lookupLast` on a cons cell. -/
theorem lookupLast_cons {K V : Type} [DecidableEq K] (p : K × V) (ps : List (K × V))
    (b : K) :
    lookupLast (p :: ps) b =
      oor (lookupLast ps b) (if p.1 = b then some p.2 else none) := by
  show (match lookupLast ps b with
    | some v => some v
    | none => if p.1 = b then some p.2 else none) = _
  cases lookupLast ps b <;> rfl

/-- `lookupLast2` on a cons cell. -/
theorem lookupLast2_cons {K V : Type} [DecidableEq K] (q : K × List (K × V))
    (t : List (K × List (K × V))) (a b : K) :
    lookupLast2 (q :: t) a b =
      oor (lookupLast2 t a b) (if q.1 = a then lookupLast q.2 b else none) := by
  show (match lookupLast2 t a b with
    | some v => some v
    | none => if q.1 = a then lookupLast q.2 b else none) = _
  cases lookupLast2 t a b <;> rfl

/-- `lookup2` after one `flipInsert`: only the written cell changes. -/
theorem lookup2_flipInsert {K V : Type} [DecidableEq K] (r : List (K × List (K × V)))
    (k2 k : K) (v : V) (x y : K) :
    lookup2 (flipInsert r k2 k v) x y =
      if x = k2 ∧ y = k then some v else lookup2 r x y := by
  induction r with
  | nil =>
    show lookup2 [(k2, [(k, v)])] x y = _
    rw [lookup2_cons]
    by_cases hx : x = k2
    · rw [if_pos hx.symm]
      show (if k = y then some v else none) = _
      by_cases hy : y = k
      · rw [if_pos hy.symm, if_pos ⟨hx, hy⟩]
      · rw [if_neg (fun hh => hy hh.symm), if_neg (fun hh => hy hh.2)]
        rfl
    · rw [if_neg (fun hh => hx hh.symm), if_neg (fun hh => hx hh.1)]
  | cons p ps ih =>
    show lookup2 (if p.1 = k2 then (p.1, listUpdate p.2 k v) :: ps
        else p :: flipInsert ps k2 k v) x y = _
    by_cases hp : p.1 = k2
    · rw [if_pos hp, lookup2_cons]
      by_cases hx : p.1 = x
      · have hxk2 : x = k2 := hx.symm.trans hp
        rw [if_pos hx, lookup_listUpdate]
        by_cases hy : y = k
        · rw [if_pos hy, if_pos ⟨hxk2, hy⟩]
        · rw [if_neg hy, if_neg (fun hh => hy hh.2), lookup2_cons, if_pos hx]
      · have hxk2 : ¬(x = k2) := fun hh => hx (hp.trans hh.symm)
        rw [if_neg hx, if_neg (fun hh => hxk2 hh.1), lookup2_cons, if_neg hx]
    · rw [if_neg hp, lookup2_cons]
      by_cases hx : p.1 = x
      · have hxk2 : ¬(x = k2) := fun hh => hp (hx.trans hh)
        rw [if_pos hx, if_neg (fun hh => hxk2 hh.1), lookup2_cons, if_pos hx]
      · rw [if_neg hx, ih]
        by_cases hc : x = k2 ∧ y = k
        · rw [if_pos hc, if_pos hc]
        · rw [if_neg hc, if_neg hc, lookup2_cons, if_neg hx]

/-- The inner fold of `flipm` over one source row writes exactly the column
`y = k`. -/
theorem lookup2_flipInner {K V : Type} [DecidableEq K] (m : List (K × V)) (k : K)
    (x y : K) :
    ∀ acc, lookup2 (m.foldl (fun r p => flipInsert r p.1 k p.2) acc) x y =
      oor (if y = k then lookupLast m x else none) (lookup2 acc x y) := by
  induction m with
  | nil =>
    intro acc
    show lookup2 acc x y = _
    have h0 : (if y = k then lookupLast ([] : List (K × V)) x else none) = none := by
      split <;> rfl
    rw [h0]
    rfl
  | cons p m ih =>
    intro acc
    rw [List.foldl_cons, ih, lookup2_flipInsert, lookupLast_cons]
    by_cases hy : y = k
    · rw [if_pos hy, if_pos hy]
      cases hll : lookupLast m x with
      | some v => rfl
      | none =>
        by_cases hpx : p.1 = x
        · rw [if_pos ⟨hpx.symm, hy⟩, if_pos hpx]
          rfl
        · rw [if_neg (fun hh => hpx hh.1.symm), if_neg hpx]
          rfl
    · rw [if_neg hy, if_neg hy, if_neg (fun hh => hy hh.2)]

/-- The outer fold of `flipm`: the flipped lookup is the last write for the
transposed cell. -/
theorem lookup2_flipm_aux {K V : Type} [DecidableEq K] (t : List (K × List (K × V)))
    (x y : K) :
    ∀ acc, lookup2 (t.foldl (fun ret km => km.2.foldl
        (fun r p => flipInsert r p.1 km.1 p.2) ret) acc) x y =
      oor (lookupLast2 t y x) (lookup2 acc x y) := by
  induction t with
  | nil =>
    intro acc
    rfl
  | cons q t ih =>
    intro acc
    rw [List.foldl_cons, ih, lookup2_flipInner, lookupLast2_cons]
    have hcond : (if y = q.1 then lookupLast q.2 x else none) =
        (if q.1 = y then lookupLast q.2 x else none) := by
      by_cases h : y = q.1
      · rw [if_pos h, if_pos h.symm]
      · rw [if_neg h, if_neg (fun hh => h hh.symm)]
    rw [hcond, oor_assoc]

/-- `lookup2` on the flipped table is the transposed last write. -/
theorem lookup2_flipm {K V : Type} [DecidableEq K] (t : List (K × List (K × V)))
    (x y : K) : lookup2 (flipm t) x y = lookupLast2 t y x := by
  unfold flipm
  rw [lookup2_flipm_aux]
  rw [show lookup2 ([] : List (K × List (K × V))) x y = none from rfl, oor_none]

/-! ### Well-formedness of tables -/

/-- A well-formed two-level table: distinct outer keys and distinct inner
keys, as any Python dict of dicts satisfies by construction. -/
def wfTable {K V : Type} (t : List (K × List (K × V))) : Prop :=
  (keysOf t).Nodup ∧ ∀ p ∈ t, (keysOf p.2).Nodup

/-- All inner dicts non-empty. -/
def nonemptyInners {K V : Type} (t : List (K × List (K × V))) : Prop :=
  ∀ p ∈ t, p.2 ≠ []

/-- No inner key occurs under two different outer keys. -/
def noSharedInnerKeys {K V : Type} (t : List (K × List (K × V))) : Prop :=
  t.Pairwise fun p q => ∀ c, c ∈ keysOf p.2 → c ∉ keysOf q.2

/-- The invariant maintained while building a flipped table. -/
def TInv {K V : Type} (t : List (K × List (K × V))) : Prop :=
  wfTable t ∧ nonemptyInners t

/-- A dict assignment never empties a dict. -/
theorem listUpdate_ne_nil {K V : Type} [DecidableEq K] (d : List (K × V)) (k : K)
    (v : V) : listUpdate d k v ≠ [] := by
  cases d with
  | nil => simp [listUpdate]
  | cons p ps =>
    simp only [listUpdate]
    split <;> simp

/-- `flipInsert` either keeps the outer key list or appends the fresh key. -/
theorem flipInsert_keys {K V : Type} [DecidableEq K] (r : List (K × List (K × V)))
    (k2 k : K) (v : V) :
    keysOf (flipInsert r k2 k v) =
      if k2 ∈ keysOf r then keysOf r else keysOf r ++ [k2] := by
  induction r with
  | nil => simp [flipInsert, keysOf]
  | cons p ps ih =>
    show keysOf (if p.1 = k2 then (p.1, listUpdate p.2 k v) :: ps
        else p :: flipInsert ps k2 k v) = _
    by_cases hp : p.1 = k2
    · rw [if_pos hp]
      have hmem : k2 ∈ keysOf (p :: ps) := List.mem_cons.mpr (Or.inl hp.symm)
      rw [if_pos hmem]
      rfl
    · rw [if_neg hp]
      show p.1 :: keysOf (flipInsert ps k2 k v) = _
      rw [ih]
      have hk : (k2 ∈ keysOf (p :: ps)) ↔ (k2 ∈ keysOf ps) := by
        show k2 ∈ p.1 :: keysOf ps ↔ _
        rw [List.mem_cons]
        constructor
        · rintro (hh | hh)
          · exact absurd hh.symm hp
          · exact hh
        · exact Or.inr
      by_cases hmem : k2 ∈ keysOf ps
      · rw [if_pos hmem, if_pos (hk.mpr hmem)]
        rfl
      · rw [if_neg hmem, if_neg (fun hh => hmem (hk.mp hh))]
        rfl

/-- Structure of the entries of `flipInsert`. -/
theorem flipInsert_mem {K V : Type} [DecidableEq K] (r : List (K × List (K × V)))
    (k2 k : K) (v : V) (p : K × List (K × V)) (hp : p ∈ flipInsert r k2 k v) :
    p ∈ r ∨ p.2 = [(k, v)] ∨ ∃ q ∈ r, p = (q.1, listUpdate q.2 k v) := by
  induction r with
  | nil =>
    rw [List.mem_singleton.mp hp]
    exact Or.inr (Or.inl rfl)
  | cons q ps ih =>
    simp only [flipInsert] at hp
    split at hp
    · rcases List.mem_cons.mp hp with rfl | hp2
      · exact Or.inr (Or.inr ⟨q, List.mem_cons_self _ _, rfl⟩)
      · exact Or.inl (List.mem_cons_of_mem _ hp2)
    · rcases List.mem_cons.mp hp with rfl | hp2
      · exact Or.inl (List.mem_cons_self _ _)
      · rcases ih hp2 with hmem | heq | ⟨w, hw, hpw⟩
        · exact Or.inl (List.mem_cons_of_mem _ hmem)
        · exact Or.inr (Or.inl heq)
        · exact Or.inr (Or.inr ⟨w, List.mem_cons_of_mem _ hw, hpw⟩)

/-- `flipInsert` preserves the building invariant. -/
theorem flipInsert_TInv {K V : Type} [DecidableEq K] (r : List (K × List (K × V)))
    (k2 k : K) (v : V) (h : TInv r) : TInv (flipInsert r k2 k v) := by
  obtain ⟨⟨houter, hinner⟩, hne⟩ := h
  refine ⟨⟨?_, ?_⟩, ?_⟩
  · rw [flipInsert_keys]
    split
    · exact houter
    · next hk => simp [List.nodup_append, houter, hk]
  · intro p hp
    rcases flipInsert_mem _ _ _ _ p hp with hmem | heq | ⟨q, hq, rfl⟩
    · exact hinner p hmem
    · rw [heq]
      simp [keysOf]
    · exact listUpdate_keys_nodup _ _ _ (hinner q hq)
  · intro p hp
    rcases flipInsert_mem _ _ _ _ p hp with hmem | heq | ⟨q, hq, rfl⟩
    · exact hne p hmem
    · rw [heq]
      simp
    · exact listUpdate_ne_nil _ _ _

/-- Every flipped table satisfies the building invariant. -/
theorem flipm_TInv {K V : Type} [DecidableEq K] (t : List (K × List (K × V))) :
    TInv (flipm t) := by
  unfold flipm
  refine foldl_preserve TInv _ (fun ret km hret => ?_) t []
    ⟨⟨by simp [keysOf], by intro p hp; simp at hp⟩, by intro p hp; simp at hp⟩
  refine foldl_preserve TInv _ (fun r p hr => ?_) km.2 ret hret
  exact flipInsert_TInv _ _ _ _ hr

/-- An absent key has no last write. -/
theorem lookupLast_eq_none {K V : Type} [DecidableEq K] (m : List (K × V)) (b : K)
    (h : b ∉ keysOf m) : lookupLast m b = none := by
  induction m with
  | nil => rfl
  | cons p ps ih =>
    rw [lookupLast_cons, ih (fun hh => h (List.mem_cons_of_mem _ hh)),
      if_neg (fun hh => h (List.mem_cons.mpr (Or.inl hh.symm)))]
    rfl

/-- An absent key has no first match either. -/
theorem lookup_eq_none {K V : Type} [DecidableEq K] (m : List (K × V)) (b : K)
    (h : b ∉ keysOf m) : lookup m b = none := by
  induction m with
  | nil => rfl
  | cons p ps ih =>
    show (if p.1 = b then some p.2 else lookup ps b) = none
    rw [if_neg (fun hh => h (List.mem_cons.mpr (Or.inl hh.symm))),
      ih (fun hh => h (List.mem_cons_of_mem _ hh))]

/-- With distinct keys the last write and the first match coincide. -/
theorem lookupLast_eq_lookup {K V : Type} [DecidableEq K] (m : List (K × V)) :
    (keysOf m).Nodup → ∀ b, lookupLast m b = lookup m b := by
  induction m with
  | nil => intro _ b; rfl
  | cons p ps ih =>
    intro h b
    have hhead : p.1 ∉ keysOf ps := (List.nodup_cons.mp h).1
    have hps : (keysOf ps).Nodup := (List.nodup_cons.mp h).2
    rw [lookupLast_cons]
    show _ = (if p.1 = b then some p.2 else lookup ps b)
    by_cases hb : p.1 = b
    · rw [lookupLast_eq_none ps b (hb ▸ hhead), if_pos hb, if_pos hb]
      rfl
    · rw [if_neg hb, if_neg hb, ih hps b]
      exact oor_none _

/-- An absent outer key has no last write in the two-level table. -/
theorem lookupLast2_eq_none {K V : Type} [DecidableEq K]
    (t : List (K × List (K × V))) (a b : K) (h : a ∉ keysOf t) :
    lookupLast2 t a b = none := by
  induction t with
  | nil => rfl
  | cons q ps ih =>
    rw [lookupLast2_cons, ih (fun hh => h (List.mem_cons_of_mem _ hh)),
      if_neg (fun hh => h (List.mem_cons.mpr (Or.inl hh.symm)))]
    rfl

/-- On a well-formed table the two-level last write is the two-level
lookup. -/
theorem lookupLast2_eq_lookup2 {K V : Type} [DecidableEq K]
    (t : List (K × List (K × V))) :
    wfTable t → ∀ a b, lookupLast2 t a b = lookup2 t a b := by
  induction t with
  | nil => intro _ a b; rfl
  | cons p ps ih =>
    intro h a b
    obtain ⟨houter, hinner⟩ := h
    have hhead : p.1 ∉ keysOf ps := (List.nodup_cons.mp houter).1
    have hps : wfTable ps :=
      ⟨(List.nodup_cons.mp houter).2, fun q hq => hinner q (List.mem_cons_of_mem _ hq)⟩
    rw [lookupLast2_cons, lookup2_cons]
    by_cases ha : p.1 = a
    · rw [lookupLast2_eq_none ps a b (ha ▸ hhead), if_pos ha, if_pos ha]
      show lookupLast p.2 b = lookup p.2 b
      exact lookupLast_eq_lookup p.2 (hinner p (List.mem_cons_self _ _)) b
    · rw [if_neg ha, if_neg ha, ih hps a b]
      exact oor_none _

/-! ### Python dict equality on tables -/

/-- First-match lookup retrieves any entry of a dict with distinct keys. -/
theorem lookup_of_mem_nodup {K V : Type} [DecidableEq K] (d : List (K × V)) :
    (keysOf d).Nodup → ∀ (a : K) (m : V), (a, m) ∈ d → lookup d a = some m := by
  induction d with
  | nil =>
    intro _ a m hm
    simp at hm
  | cons p ps ih =>
    intro h a m hm
    have hhead : p.1 ∉ keysOf ps := (List.nodup_cons.mp h).1
    rcases List.mem_cons.mp hm with heq | hm2
    · subst heq
      show (if a = a then some m else lookup ps a) = some m
      rw [if_pos rfl]
    · have ha : p.1 ≠ a := by
        intro hh
        apply hhead
        rw [hh]
        exact List.mem_map.mpr ⟨(a, m), hm2, rfl⟩
      show (if p.1 = a then some p.2 else lookup ps a) = some m
      rw [if_neg ha]
      exact ih (List.nodup_cons.mp h).2 a m hm2

/-- A successful first-match lookup comes from an entry. -/
theorem mem_of_lookup {K V : Type} [DecidableEq K] (d : List (K × V)) (a : K) (m : V)
    (h : lookup d a = some m) : (a, m) ∈ d := by
  induction d with
  | nil => exact absurd h (by simp [lookup])
  | cons p ps ih =>
    rw [show lookup (p :: ps) a = if p.1 = a then some p.2 else lookup ps a from rfl] at h
    by_cases hp : p.1 = a
    · rw [if_pos hp] at h
      obtain rfl := Option.some.inj h
      rw [← hp]
      exact List.mem_cons_self p ps
    · rw [if_neg hp] at h
      exact List.mem_cons_of_mem _ (ih h)

/-- Python `==` on inner dicts: same key set, same values. -/
def innerEqB {K V : Type} [DecidableEq K] [DecidableEq V] (m1 m2 : List (K × V)) :
    Bool :=
  (m1.all fun p => decide (lookup m2 p.1 = some p.2)) &&
  (m2.all fun p => decide (lookup m1 p.1 = some p.2))

/-- Python `==` on two-level dicts: same outer key set, inner dicts equal as
dicts. -/
def tableEqB {K V : Type} [DecidableEq K] [DecidableEq V]
    (t1 t2 : List (K × List (K × V))) : Bool :=
  (t1.all fun p =>
    match lookup t2 p.1 with
    | some m => innerEqB p.2 m
    | none => false) &&
  (t2.all fun p =>
    match lookup t1 p.1 with
    | some m => innerEqB p.2 m
    | none => false)

/-- One side of `tableEqB` from pointwise equality of two-level lookups. -/
theorem tableEqB_side {K V : Type} [DecidableEq K] [DecidableEq V]
    (s1 s2 : List (K × List (K × V))) (hno1 : (keysOf s1).Nodup)
    (hin1 : ∀ p ∈ s1, (keysOf p.2).Nodup) (hne1 : ∀ p ∈ s1, p.2 ≠ [])
    (hin2 : ∀ p ∈ s2, (keysOf p.2).Nodup)
    (heq : ∀ a b, lookup2 s1 a b = lookup2 s2 a b) :
    (s1.all fun p =>
      match lookup s2 p.1 with
      | some m => innerEqB p.2 m
      | none => false) = true := by
  rw [List.all_eq_true]
  intro p hp
  obtain ⟨q0, hq0⟩ : ∃ q, q ∈ p.2 := by
    cases hp2 : p.2 with
    | nil => exact absurd hp2 (hne1 p hp)
    | cons w ws =>
      exact ⟨w, List.mem_cons_self _ _⟩
  have hl1 : lookup s1 p.1 = some p.2 := lookup_of_mem_nodup s1 hno1 p.1 p.2 hp
  have hv0 : lookup2 s1 p.1 q0.1 = some q0.2 := by
    unfold lookup2
    rw [hl1]
    exact lookup_of_mem_nodup p.2 (hin1 p hp) q0.1 q0.2 hq0
  have hv2 : lookup2 s2 p.1 q0.1 = some q0.2 := by
    rw [← heq p.1 q0.1]
    exact hv0
  obtain ⟨m2, hm2⟩ : ∃ m2, lookup s2 p.1 = some m2 := by
    unfold lookup2 at hv2
    cases hl2 : lookup s2 p.1 with
    | none =>
      rw [hl2] at hv2
      exact absurd hv2 (by simp)
    | some m2 => exact ⟨m2, rfl⟩
  rw [hm2]
  show innerEqB p.2 m2 = true
  unfold innerEqB
  rw [Bool.and_eq_true, List.all_eq_true, List.all_eq_true]
  have hm2mem : (p.1, m2) ∈ s2 := mem_of_lookup s2 p.1 m2 hm2
  have hin2m : (keysOf m2).Nodup := hin2 (p.1, m2) hm2mem
  constructor
  · intro q hq
    have e1 : lookup2 s1 p.1 q.1 = some q.2 := by
      unfold lookup2
      rw [hl1]
      exact lookup_of_mem_nodup p.2 (hin1 p hp) q.1 q.2 hq
    have e2 : lookup2 s2 p.1 q.1 = some q.2 := by
      rw [← heq p.1 q.1]
      exact e1
    unfold lookup2 at e2
    rw [hm2] at e2
    exact decide_eq_true e2
  · intro q hq
    have e2 : lookup2 s2 p.1 q.1 = some q.2 := by
      unfold lookup2
      rw [hm2]
      exact lookup_of_mem_nodup m2 hin2m q.1 q.2 hq
    have e1 : lookup2 s1 p.1 q.1 = some q.2 := by
      rw [heq p.1 q.1]
      exact e2
    unfold lookup2 at e1
    rw [hl1] at e1
    exact decide_eq_true e1

/-- Pointwise equal two-level lookups give Python dict equality, for tables
with distinct keys and non-empty inner dicts. -/
theorem tableEqB_of_lookup2_eq {K V : Type} [DecidableEq K] [DecidableEq V]
    (t1 t2 : List (K × List (K × V))) (h1 : TInv t1) (h2 : TInv t2)
    (h : ∀ a b, lookup2 t1 a b = lookup2 t2 a b) : tableEqB t1 t2 = true := by
  obtain ⟨⟨ho1, hi1⟩, hn1⟩ := h1
  obtain ⟨⟨ho2, hi2⟩, hn2⟩ := h2
  unfold tableEqB
  rw [Bool.and_eq_true]
  constructor
  · exact tableEqB_side t1 t2 ho1 hi1 hn1 hi2 h
  · exact tableEqB_side t2 t1 ho2 hi2 hn2 hi1 (fun a b => (h a b).symm)

/-! ### C7 -/

/-- C7 (amended): on a well-formed table with no inner key shared across
outer keys and with every inner dict non-empty, flipping twice gives back the
table up to Python dict equality.  (An outer key with an empty inner dict is
dropped by `flipm`, so the extra non-emptiness hypothesis is needed.) -/
theorem c7_flipm_involution {K V : Type} [DecidableEq K] [DecidableEq V]
    (t : List (K × List (K × V))) (hwf : wfTable t) (hne : nonemptyInners t)
    (hshared : noSharedInnerKeys t) :
    tableEqB (flipm (flipm t)) t = true := by
  apply tableEqB_of_lookup2_eq _ _ (flipm_TInv (flipm t)) ⟨hwf, hne⟩
  intro a b
  rw [lookup2_flipm, lookupLast2_eq_lookup2 (flipm t) (flipm_TInv t).1 b a,
    lookup2_flipm, lookupLast2_eq_lookup2 t hwf a b]

/-- C7 counterexample: the table `{0: {}}` is well-formed and shares no inner
keys, yet flipping it twice yields `{}`, which is not equal to it — the claim
fails without the non-empty-inner-dict hypothesis. -/
theorem c7_counterexample :
    wfTable [((0 : Nat), ([] : List (Nat × Nat)))] ∧
    noSharedInnerKeys [((0 : Nat), ([] : List (Nat × Nat)))] ∧
    tableEqB (flipm (flipm [((0 : Nat), ([] : List (Nat × Nat)))]))
      [((0 : Nat), ([] : List (Nat × Nat)))] = false := by
  refine ⟨⟨?_, ?_⟩, ?_, rfl⟩
  · simp [keysOf]
  · intro p hp
    rw [List.mem_singleton.mp hp]
    simp [keysOf]
  · simp [noSharedInnerKeys]

/-- Witness for C7: the amended involution at a concrete one-cell table. -/
theorem c7_witness :
    tableEqB (flipm (flipm [((0 : Nat), [(1, 5)])])) [((0 : Nat), [(1, 5)])] = true :=
  c7_flipm_involution [((0 : Nat), [(1, 5)])]
    ⟨by simp [keysOf], by intro p hp; rw [List.mem_singleton.mp hp]; simp [keysOf]⟩
    (by intro p hp; rw [List.mem_singleton.mp hp]; simp)
    (by simp [noSharedInnerKeys])
